import Mathlib

/-!
Verification development for the Spacerace repository (orbital_clock and
test variants).  The Rust source is shallowly embedded: strings become
`List Char`, the art buffer becomes `List (List Char)`, the `BTreeMap`
catalog becomes a sorted association list, `f64` arithmetic is modelled
exactly over `ℚ`, the random number generator becomes an explicit function
giving, for each (line, column) position, the index drawn by
`rng.gen_range(0..4)`, and the file system becomes a partial map from
paths to (already line-split) contents.
-/

/-- The substitute palette for the `'*'` marker, from the
`let choices = ['*', '+', '.', ' ']` array in `start_twinkling` /
`update_twinkling`. -/
def starChoices : List Char := ['*', '+', '.', ' ']

/-- The substitute palette for the `'┼'` marker, from the
`let choices = ['┼', '├', '─', ' ']` array in `start_twinkling` /
`update_twinkling`. -/
def crossChoices : List Char := ['┼', '├', '─', ' ']

/-- One character of the twinkle transformation: the `match c` arms of the
inner loop.  `r` is the index drawn by `rng.gen_range(0..choices.len())`
for this occurrence (both palettes have length 4). -/
def twinkleChar (r : Fin 4) (c : Char) : Char :=
  if c = '*' then starChoices.getD r.1 c
  else if c = '┼' then crossChoices.getD r.1 c
  else c

/-- The `for c in line.chars()` loop building `new_line`, with the random
draws indexed by column position: `rl j` is the draw used at column `j`
(the source draws from a sequential stream only at marker positions; any
outcome of that stream is realised by some `rl`, and conversely). -/
def twinkleChars (rl : Nat → Fin 4) : Nat → List Char → List Char
  | _, [] => []
  | j, c :: cs => twinkleChar (rl j) c :: twinkleChars rl (j + 1) cs

/-- One line of the twinkle transformation. -/
def twinkleLine (rl : Nat → Fin 4) (line : List Char) : List Char :=
  twinkleChars rl 0 line

/-- The `for line in self.art_lines.iter_mut()` loop, with lines indexed:
`R i j` is the draw used at line `i`, column `j`. -/
def twinkleFrameAux (R : Nat → Nat → Fin 4) : Nat → List (List Char) → List (List Char)
  | _, [] => []
  | i, l :: ls => twinkleLine (R i) l :: twinkleFrameAux R (i + 1) ls

/-- The whole-frame twinkle transformation applied by one tick of
`start_twinkling` (and by one call of the test variant's
`update_twinkling`). -/
def twinkleFrame (R : Nat → Nat → Fin 4) (art : List (List Char)) : List (List Char) :=
  twinkleFrameAux R 0 art

/-- The character of a frame at line `i`, column `j` (defaulting out of
range). -/
def charAt (art : List (List Char)) (i j : Nat) : Char :=
  (art.getD i []).getD j ' '

theorem length_twinkleChars (rl : Nat → Fin 4) (j0 : Nat) (line : List Char) :
    (twinkleChars rl j0 line).length = line.length := by
  induction line generalizing j0 with
  | nil => rfl
  | cons c cs ih => simp [twinkleChars, ih]

theorem getD_twinkleChars (rl : Nat → Fin 4) (line : List Char) :
    ∀ j0 j : Nat, j < line.length →
      (twinkleChars rl j0 line).getD j ' ' = twinkleChar (rl (j0 + j)) (line.getD j ' ') := by
  induction line with
  | nil => intro j0 j hj; simp at hj
  | cons c cs ih =>
    intro j0 j hj
    cases j with
    | zero => simp [twinkleChars]
    | succ j =>
      have hj' : j < cs.length := by simpa using hj
      have := ih (j0 + 1) j hj'
      simpa [twinkleChars, Nat.add_assoc, Nat.add_comm 1 j] using this

theorem length_twinkleLine (rl : Nat → Fin 4) (line : List Char) :
    (twinkleLine rl line).length = line.length :=
  length_twinkleChars rl 0 line

theorem getD_twinkleLine (rl : Nat → Fin 4) (line : List Char) (j : Nat)
    (hj : j < line.length) :
    (twinkleLine rl line).getD j ' ' = twinkleChar (rl j) (line.getD j ' ') := by
  simpa using getD_twinkleChars rl line 0 j hj

theorem length_twinkleFrameAux (R : Nat → Nat → Fin 4) (i0 : Nat) (art : List (List Char)) :
    (twinkleFrameAux R i0 art).length = art.length := by
  induction art generalizing i0 with
  | nil => rfl
  | cons l ls ih => simp [twinkleFrameAux, ih]

theorem getD_twinkleFrameAux (R : Nat → Nat → Fin 4) (art : List (List Char)) :
    ∀ i0 i : Nat, i < art.length →
      (twinkleFrameAux R i0 art).getD i [] = twinkleLine (R (i0 + i)) (art.getD i []) := by
  induction art with
  | nil => intro i0 i hi; simp at hi
  | cons l ls ih =>
    intro i0 i hi
    cases i with
    | zero => simp [twinkleFrameAux]
    | succ i =>
      have hi' : i < ls.length := by simpa using hi
      have := ih (i0 + 1) i hi'
      simpa [twinkleFrameAux, Nat.add_assoc, Nat.add_comm 1 i] using this

theorem length_twinkleFrame (R : Nat → Nat → Fin 4) (art : List (List Char)) :
    (twinkleFrame R art).length = art.length :=
  length_twinkleFrameAux R 0 art

theorem getD_twinkleFrame (R : Nat → Nat → Fin 4) (art : List (List Char)) (i : Nat)
    (hi : i < art.length) :
    (twinkleFrame R art).getD i [] = twinkleLine (R i) (art.getD i []) := by
  simpa using getD_twinkleFrameAux R art 0 i hi

theorem lineLength_twinkleFrame (R : Nat → Nat → Fin 4) (art : List (List Char)) (i : Nat) :
    ((twinkleFrame R art).getD i []).length = (art.getD i []).length := by
  by_cases hi : i < art.length
  · rw [getD_twinkleFrame R art i hi, length_twinkleLine]
  · have h1 : art.length ≤ i := Nat.le_of_not_lt hi
    have h2 : (twinkleFrame R art).length ≤ i := by rw [length_twinkleFrame]; exact h1
    rw [List.getD_eq_default _ _ h1, List.getD_eq_default _ _ h2]

theorem charAt_twinkleFrame (R : Nat → Nat → Fin 4) (art : List (List Char)) (i j : Nat)
    (hi : i < art.length) (hj : j < (art.getD i []).length) :
    charAt (twinkleFrame R art) i j = twinkleChar (R i j) (charAt art i j) := by
  unfold charAt
  rw [getD_twinkleFrame R art i hi, getD_twinkleLine (R i) _ j hj]

theorem twinkleChar_other (r : Fin 4) (c : Char) (h1 : c ≠ '*') (h2 : c ≠ '┼') :
    twinkleChar r c = c := by
  simp [twinkleChar, h1, h2]

theorem twinkleChar_star_mem (r : Fin 4) : twinkleChar r '*' ∈ starChoices := by
  revert r; decide

theorem twinkleChar_cross_mem (r : Fin 4) : twinkleChar r '┼' ∈ crossChoices := by
  revert r; decide

/-- The fixed degree-to-asset table built by `SpaceRace::new`, as a sorted
association list (a `BTreeMap` iterates its entries in ascending key
order). -/
def degreeArtMap : List (Int × String) :=
  [(0, "asciiArt/space010.txt"),
   (20, "asciiArt/space2030.txt"),
   (40, "asciiArt/space4050.txt"),
   (60, "asciiArt/space6070.txt"),
   (90, "asciiArt/space90110.txt"),
   (120, "asciiArt/space120130.txt"),
   (140, "asciiArt/space140150.txt"),
   (160, "asciiArt/space160170.txt"),
   (180, "asciiArt/space180190.txt"),
   (200, "asciiArt/space200210.txt"),
   (220, "asciiArt/space220230.txt"),
   (240, "asciiArt/space240260.txt"),
   (270, "asciiArt/space270290.txt"),
   (300, "asciiArt/space300310.txt"),
   (320, "asciiArt/space32030.txt"),
   (340, "asciiArt/space34050.txt")]

/-- `map.range(..k).next_back()`: the `range(..k)` iterator of a `BTreeMap`
yields the entries with key strictly below `k` in ascending order, so
`next_back()` is the last such entry, if any. -/
def rangeNextBack (m : List (Int × String)) (k : Int) : Option (Int × String) :=
  (m.filter (fun p => p.1 < k)).getLast?

/-- Rust's `as i32` cast on a real value: truncation toward zero
(saturation at the `i32` bounds never occurs in this program's range).
Modelled over `ℚ`. -/
def rustTruncToInt (q : ℚ) : Int :=
  if 0 ≤ q then ⌊q⌋ else -⌊-q⌋

/-- Rust's `%` on `f64`: the remainder `x - y * trunc(x / y)`, which takes
the sign of the dividend.  Modelled over `ℚ`. -/
def rustFmod (x y : ℚ) : ℚ :=
  x - y * (rustTruncToInt (x / y) : ℚ)

/-- `calculate_earth_position`, as a function of
`days_between = now.signed_duration_since(reference_date).num_days()`
(the whole elapsed days since 2000-01-01, truncated toward zero); the
date subtraction itself is chrono library code, outside this repository.
Real arithmetic is modelled exactly over `ℚ` (`365.25 = 1461/4`). -/
def calculate_earth_position (days_between : Int) : ℚ :=
  rustFmod ((days_between : ℚ) * 360 / 365.25) 360

/-- The `SpaceRace` struct. -/
structure SpaceRace where
  art_lines : List (List Char)
  degree_art_map : List (Int × String)
deriving DecidableEq

/-- `SpaceRace::new`: empty art buffer and the fixed catalog. -/
def SpaceRace.new : SpaceRace :=
  { art_lines := [], degree_art_map := degreeArtMap }

/-- `load_ascii_art_for_current_position`.  `fs path` models
`fs::read_to_string(path)` followed by `.lines()` splitting: `some ls`
when the read succeeds, `none` when it fails.  Returns the updated struct
together with the list of console lines printed by the call. -/
def load_ascii_art_for_current_position (fs : String → Option (List (List Char)))
    (s : SpaceRace) (position : ℚ) : SpaceRace × List String :=
  match rangeNextBack s.degree_art_map (rustTruncToInt position) with
  | none => (s, [])
  | some (_, file_path) =>
    match fs file_path with
    | some ls => ({ s with art_lines := ls }, [])
    | none => (s, ["Error loading ASCII art"])

/-- The mutable state of `start_twinkling`'s loop: `self.art_lines` and
the `original_art` clone taken before the loop. -/
structure LoopState where
  art_lines : List (List Char)
  original_art : List (List Char)
deriving DecidableEq

/-- Observable effects of one tick, in the order they are emitted. -/
inductive Event where
  | clearScreen : Event
  | writeLine : List Char → Event
  | sleepMs : Nat → Event
deriving DecidableEq

/-- The first half of one tick of `start_twinkling`: the in-place
rewrite of every line of `self.art_lines` through the twinkle match. -/
def twinklePhase (R : Nat → Nat → Fin 4) (s : LoopState) : LoopState :=
  { s with art_lines := twinkleFrame R s.art_lines }

/-- The output of one tick after the rewrite: the clear-screen escape,
then each line of the (now transformed) `self.art_lines` printed in
order, then the 800 ms sleep. -/
def renderPhase (s : LoopState) : List Event :=
  Event.clearScreen :: (s.art_lines.map Event.writeLine ++ [Event.sleepMs 800])

/-- The end of one tick: `self.art_lines = original_art.clone()`. -/
def restorePhase (s : LoopState) : LoopState :=
  { s with art_lines := s.original_art }

/-- One full iteration of the `loop` in `start_twinkling`: transform in
place, emit the render events, restore the original. -/
def tickBody (R : Nat → Nat → Fin 4) (s : LoopState) : LoopState × List Event :=
  let s1 := twinklePhase R s
  (restorePhase s1, renderPhase s1)

/-- Entry into `start_twinkling`:
`let original_art = self.art_lines.clone()`. -/
def start_twinkling_init (sr : SpaceRace) : LoopState :=
  { art_lines := sr.art_lines, original_art := sr.art_lines }

/-- The state after `n` iterations of the infinite loop; `Rs n` is the
randomness consumed by iteration `n`.  The loop has no internal
termination condition, so the state is defined for every `n`. -/
def loopRun (Rs : Nat → Nat → Nat → Fin 4) (s : LoopState) : Nat → LoopState
  | 0 => s
  | n + 1 => (tickBody (Rs n) (loopRun Rs s n)).1

/-- The test variant's `update_twinkling`: one twinkle pass written back
into `self.art_lines`.  The `original_art` clone taken at the top of the
source function is dropped unused (no restore happens), so the struct is
left holding the transformed frame. -/
def update_twinkling (R : Nat → Nat → Fin 4) (s : SpaceRace) : SpaceRace :=
  { s with art_lines := twinkleFrame R s.art_lines }

theorem rangeNextBack_none_iff (m : List (Int × String)) (k : Int) :
    rangeNextBack m k = none ↔ ∀ p ∈ m, ¬p.1 < k := by
  unfold rangeNextBack
  rw [List.getLast?_eq_none_iff, List.filter_eq_nil_iff]
  simp

theorem rangeNextBack_some_spec (k : Int) :
    ∀ m : List (Int × String), m.Pairwise (fun p q => p.1 < q.1) →
      ∀ e, rangeNextBack m k = some e →
        e ∈ m ∧ e.1 < k ∧ ∀ p ∈ m, p.1 < k → p.1 ≤ e.1 := by
  intro m
  induction m with
  | nil =>
    intro _ e he
    simp [rangeNextBack] at he
  | cons p0 m ih =>
    intro hp e he
    rw [List.pairwise_cons] at hp
    unfold rangeNextBack at he
    rw [List.filter_cons] at he
    by_cases h0 : p0.1 < k
    · rw [if_pos (by simpa using h0)] at he
      rcases hf : List.filter (fun p => decide (p.1 < k)) m with _ | ⟨q, t⟩
      · rw [hf] at he
        have he' : e = p0 := by simpa using he.symm
        subst he'
        have hnone : ∀ p ∈ m, ¬p.1 < k := by
          have := (List.filter_eq_nil_iff).mp hf
          simpa using this
        refine ⟨List.mem_cons_self _ _, h0, ?_⟩
        intro p hpmem hpk
        rcases List.mem_cons.mp hpmem with h | h
        · exact le_of_eq (congrArg Prod.fst h)
        · exact absurd hpk (hnone p h)
      · rw [hf, List.getLast?_cons_cons] at he
        have he' : rangeNextBack m k = some e := by
          unfold rangeNextBack; rw [hf]; exact he
        obtain ⟨hmem, hlt, hmax⟩ := ih hp.2 e he'
        refine ⟨List.mem_cons_of_mem _ hmem, hlt, ?_⟩
        intro p hpmem hpk
        rcases List.mem_cons.mp hpmem with h | h
        · subst h
          exact le_of_lt (hp.1 e hmem)
        · exact hmax p h hpk
    · rw [if_neg (by simpa using h0)] at he
      obtain ⟨hmem, hlt, hmax⟩ := ih hp.2 e he
      refine ⟨List.mem_cons_of_mem _ hmem, hlt, ?_⟩
      intro p hpmem hpk
      rcases List.mem_cons.mp hpmem with h | h
      · subst h; exact absurd hpk h0
      · exact hmax p h hpk

theorem rangeNextBack_isSome (m : List (Int × String)) (k : Int) (p : Int × String)
    (hp : p ∈ m) (h : p.1 < k) : ∃ e, rangeNextBack m k = some e := by
  have hmem : p ∈ m.filter (fun p => p.1 < k) :=
    List.mem_filter.mpr ⟨hp, by simpa using h⟩
  have hne : m.filter (fun p => decide (p.1 < k)) ≠ [] := List.ne_nil_of_mem hmem
  exact Option.isSome_iff_exists.mp (List.getLast?_isSome.mpr hne)

theorem degreeArtMap_sorted : degreeArtMap.Pairwise (fun p q => p.1 < q.1) := by
  decide

theorem degreeArtMap_keys_nonneg : ∀ p ∈ degreeArtMap, (0 : Int) ≤ p.1 := by
  decide

theorem zero_mem_degreeArtMap : ((0 : Int), "asciiArt/space010.txt") ∈ degreeArtMap := by
  decide

theorem rustTruncToInt_of_nonneg {q : ℚ} (h : 0 ≤ q) : rustTruncToInt q = ⌊q⌋ :=
  if_pos h

theorem rustTruncToInt_neg (q : ℚ) : rustTruncToInt (-q) = -rustTruncToInt q := by
  rcases lt_trichotomy q 0 with h | h | h
  · rw [rustTruncToInt, rustTruncToInt, if_pos (by linarith), if_neg (by linarith), neg_neg]
  · subst h; simp [rustTruncToInt]
  · rw [rustTruncToInt, rustTruncToInt, if_neg (by linarith), if_pos (by linarith), neg_neg]

theorem rustFmod_neg_left (x y : ℚ) : rustFmod (-x) y = -rustFmod x y := by
  unfold rustFmod
  rw [neg_div, rustTruncToInt_neg]
  push_cast
  ring

theorem rustFmod_nonneg_bounds {x y : ℚ} (hy : 0 < y) (hx : 0 ≤ x) :
    0 ≤ rustFmod x y ∧ rustFmod x y < y := by
  have hq : 0 ≤ x / y := div_nonneg hx hy.le
  unfold rustFmod
  rw [rustTruncToInt_of_nonneg hq]
  have h1 : (⌊x / y⌋ : ℚ) ≤ x / y := Int.floor_le _
  have h2 : x / y < ⌊x / y⌋ + 1 := Int.lt_floor_add_one _
  rw [le_div_iff₀ hy] at h1
  rw [div_lt_iff₀ hy] at h2
  constructor <;> nlinarith

theorem rustFmod_nonpos_bounds {x y : ℚ} (hy : 0 < y) (hx : x ≤ 0) :
    -y < rustFmod x y ∧ rustFmod x y ≤ 0 := by
  have h := rustFmod_nonneg_bounds hy (neg_nonneg.mpr hx)
  rw [← neg_neg x, rustFmod_neg_left]
  exact ⟨by linarith [h.2], by linarith [h.1]⟩

theorem floor_le_zero_iff (a : ℚ) : ⌊a⌋ ≤ 0 ↔ a < 1 := by
  constructor
  · intro h
    by_contra hc
    have h1 : (1 : Int) ≤ ⌊a⌋ := Int.le_floor.mpr (by push_cast; linarith)
    omega
  · intro h
    by_contra hc
    have h1 : (1 : Int) ≤ ⌊a⌋ := by omega
    have := Int.le_floor.mp h1
    push_cast at this
    linarith

theorem loopRun_invariant (Rs : Nat → Nat → Nat → Fin 4) (sr : SpaceRace) (n : Nat) :
    (loopRun Rs (start_twinkling_init sr) n).art_lines = sr.art_lines ∧
    (loopRun Rs (start_twinkling_init sr) n).original_art = sr.art_lines := by
  induction n with
  | zero => exact ⟨rfl, rfl⟩
  | succ n ih =>
    simp only [loopRun, tickBody, restorePhase, twinklePhase]
    exact ⟨ih.2, ih.2⟩

/-- C1: for every randomness source (including one that always picks the
blank substitute, index 3) and every starting struct, the art lines at
the start of each iteration of `start_twinkling`'s loop equal the
originally loaded frame: the end-of-tick restore from `original_art`
means the twinkle transformation is always applied to the stored
original, never to a previous tick's output, and the original frame is
never permanently overwritten. -/
theorem twinkle_input_is_original (Rs : Nat → Nat → Nat → Fin 4) (sr : SpaceRace) (n : Nat) :
    (loopRun Rs (start_twinkling_init sr) n).art_lines = sr.art_lines :=
  (loopRun_invariant Rs sr n).1

/-- C2: for every angle `a ∈ [0,360)`, the catalog lookup
`degree_art_map.range(..a as i32).next_back()` returns the entry with the
greatest threshold strictly below `⌊a⌋` when one exists, and no result
exactly when no configured threshold is strictly below `⌊a⌋`. -/
theorem lookup_floor_policy (a : ℚ) (h0 : 0 ≤ a) (_h1 : a < 360) :
    (∀ e, rangeNextBack degreeArtMap (rustTruncToInt a) = some e →
        e ∈ degreeArtMap ∧ e.1 < ⌊a⌋ ∧ ∀ p ∈ degreeArtMap, p.1 < ⌊a⌋ → p.1 ≤ e.1)
  ∧ (rangeNextBack degreeArtMap (rustTruncToInt a) = none ↔
        ∀ p ∈ degreeArtMap, ¬p.1 < ⌊a⌋) := by
  rw [rustTruncToInt_of_nonneg h0]
  exact ⟨fun e he => rangeNextBack_some_spec ⌊a⌋ degreeArtMap degreeArtMap_sorted e he,
         rangeNextBack_none_iff degreeArtMap ⌊a⌋⟩

/-- Witness for C2: `lookup(45.7)` resolves to the 40-threshold entry
(and 40 is indeed below `⌊45.7⌋ = 45`), and `lookup(19.9)` resolves to
the 0-threshold entry. -/
theorem lookup_floor_policy_witness :
    rangeNextBack degreeArtMap (rustTruncToInt (457 / 10 : ℚ))
      = some (40, "asciiArt/space4050.txt")
  ∧ (40 : Int) < ⌊(457 / 10 : ℚ)⌋
  ∧ rangeNextBack degreeArtMap (rustTruncToInt (199 / 10 : ℚ))
      = some (0, "asciiArt/space010.txt") := by
  have ht1 : rustTruncToInt (457 / 10 : ℚ) = 45 := by norm_num [rustTruncToInt]
  have ht2 : rustTruncToInt (199 / 10 : ℚ) = 19 := by norm_num [rustTruncToInt]
  have hsome : rangeNextBack degreeArtMap (rustTruncToInt (457 / 10 : ℚ))
      = some (40, "asciiArt/space4050.txt") := by
    rw [ht1]; decide
  refine ⟨hsome, ?_, by rw [ht2]; decide⟩
  exact ((lookup_floor_policy (457 / 10) (by norm_num) (by norm_num)).1 _ hsome).2.1

/-- C3: for every randomness outcome and every input frame, the twinkle
transformation preserves the number of lines and each line's character
count; non-marker characters pass through unchanged at their position,
a `'*'` becomes a member of its palette and a `'┼'` becomes a member of
its palette. -/
theorem twinkle_shape_preservation (R : Nat → Nat → Fin 4) (art : List (List Char)) :
    (twinkleFrame R art).length = art.length
  ∧ (∀ i : Nat, ((twinkleFrame R art).getD i []).length = (art.getD i []).length)
  ∧ (∀ i j : Nat, i < art.length → j < (art.getD i []).length →
      ((charAt art i j ≠ '*' → charAt art i j ≠ '┼' →
          charAt (twinkleFrame R art) i j = charAt art i j)
     ∧ (charAt art i j = '*' → charAt (twinkleFrame R art) i j ∈ starChoices)
     ∧ (charAt art i j = '┼' → charAt (twinkleFrame R art) i j ∈ crossChoices))) := by
  refine ⟨length_twinkleFrame R art, lineLength_twinkleFrame R art, ?_⟩
  intro i j hi hj
  rw [charAt_twinkleFrame R art i j hi hj]
  refine ⟨fun h1 h2 => twinkleChar_other _ _ h1 h2, fun h => ?_, fun h => ?_⟩
  · rw [h]; exact twinkleChar_star_mem _
  · rw [h]; exact twinkleChar_cross_mem _

/-- Witness for C3 on the concrete frame `[['*', '┼', 'A']]` with the
constant draw 1: the non-marker `'A'` is unchanged and each marker lands
in its palette. -/
theorem twinkle_shape_preservation_witness :
    charAt (twinkleFrame (fun _ _ => 1) [['*', '┼', 'A']]) 0 2 = 'A'
  ∧ charAt (twinkleFrame (fun _ _ => 1) [['*', '┼', 'A']]) 0 0 ∈ starChoices
  ∧ charAt (twinkleFrame (fun _ _ => 1) [['*', '┼', 'A']]) 0 1 ∈ crossChoices := by
  have h := twinkle_shape_preservation (fun _ _ => 1) [['*', '┼', 'A']]
  exact ⟨(h.2.2 0 2 (by decide) (by decide)).1 (by decide) (by decide),
         (h.2.2 0 0 (by decide) (by decide)).2.1 (by decide),
         (h.2.2 0 1 (by decide) (by decide)).2.2 (by decide)⟩

/-- Counterexample to C4 as stated: one day before the 2000-01-01 epoch
(`days_between = -1`) the computed angle is negative, hence outside
`[0,360)` — Rust's `%` on `f64` takes the sign of the dividend. -/
theorem earth_position_neg_counterexample :
    calculate_earth_position (-1) < 0 := by
  norm_num [calculate_earth_position, rustFmod, rustTruncToInt]

/-- C4 amended: the angle equals `(days * 360 / 365.25) % 360` with `%`
the truncation-based remainder taking the dividend's sign, and the
function is total; the result lies in `[0,360)` for timestamps at or
after the epoch (`days ≥ 0`), and in `(-360,0]` for earlier timestamps. -/
theorem earth_position_range (d : Int) :
    calculate_earth_position d = rustFmod ((d : ℚ) * 360 / 365.25) 360
  ∧ (0 ≤ d → 0 ≤ calculate_earth_position d ∧ calculate_earth_position d < 360)
  ∧ (d < 0 → -360 < calculate_earth_position d ∧ calculate_earth_position d ≤ 0) := by
  refine ⟨rfl, fun hd => ?_, fun hd => ?_⟩
  · have hdq : (0 : ℚ) ≤ (d : ℚ) := by exact_mod_cast hd
    have hx : (0 : ℚ) ≤ (d : ℚ) * 360 / 365.25 :=
      div_nonneg (mul_nonneg hdq (by norm_num)) (by norm_num)
    exact rustFmod_nonneg_bounds (by norm_num) hx
  · have hdq : (d : ℚ) ≤ 0 := by exact_mod_cast hd.le
    have hx : (d : ℚ) * 360 / 365.25 ≤ 0 := by
      have h360 : (d : ℚ) * 360 ≤ 0 := by nlinarith
      exact div_nonpos_iff.mpr (Or.inr ⟨h360, by norm_num⟩)
    exact rustFmod_nonpos_bounds (by norm_num) hx

/-- Witness for C4 amended at `days_between = 20`: the angle is in
`[0,360)`. -/
theorem earth_position_range_witness :
    0 ≤ calculate_earth_position 20 ∧ calculate_earth_position 20 < 360 :=
  (earth_position_range 20).2.1 (by norm_num)

/-- Counterexample to C5 as stated: at angle `1/2` the lookup misses and
the program prints nothing at all — the miss is not reported to the
operator (only the load-failure branch prints), though the frame does
stay empty and the call returns normally. -/
theorem lookup_miss_silent_counterexample :
    rangeNextBack SpaceRace.new.degree_art_map (rustTruncToInt (1 / 2 : ℚ)) = none
  ∧ (load_ascii_art_for_current_position (fun _ => none) SpaceRace.new (1 / 2)).2 = []
  ∧ (load_ascii_art_for_current_position (fun _ => none) SpaceRace.new (1 / 2)).1.art_lines
      = [] := by
  have ht : rustTruncToInt (1 / 2 : ℚ) = 0 := by norm_num [rustTruncToInt]
  have hn : rangeNextBack SpaceRace.new.degree_art_map (rustTruncToInt (1 / 2 : ℚ)) = none := by
    rw [show SpaceRace.new.degree_art_map = degreeArtMap from rfl, ht]
    decide
  refine ⟨hn, ?_, ?_⟩
  · unfold load_ascii_art_for_current_position
    rw [hn]
  · unfold load_ascii_art_for_current_position
    rw [hn]
    rfl

/-- C5 amended: a lookup miss is handled silently (no report, art lines
unchanged — empty at Init — and the call returns normally so the loop
still runs), while a failed read of a resolved asset is reported with
"Error loading ASCII art" and likewise leaves the art lines unchanged;
neither failure crashes. -/
theorem degraded_state_handling (fs : String → Option (List (List Char))) (pos : ℚ) :
    (rangeNextBack SpaceRace.new.degree_art_map (rustTruncToInt pos) = none →
       load_ascii_art_for_current_position fs SpaceRace.new pos = (SpaceRace.new, []))
  ∧ (∀ t p, rangeNextBack SpaceRace.new.degree_art_map (rustTruncToInt pos) = some (t, p) →
       fs p = none →
       load_ascii_art_for_current_position fs SpaceRace.new pos
         = (SpaceRace.new, ["Error loading ASCII art"])) := by
  constructor
  · intro h
    simp [load_ascii_art_for_current_position, h]
  · intro t p h hf
    simp [load_ascii_art_for_current_position, h, hf]

/-- Witness for C5 amended: at angle 2 the lookup resolves to the
0-threshold asset; with a file system on which every read fails, the
call reports the load error and keeps the empty frame. -/
theorem degraded_state_handling_witness :
    load_ascii_art_for_current_position (fun _ => none) SpaceRace.new 2
      = (SpaceRace.new, ["Error loading ASCII art"]) := by
  have h2 : rustTruncToInt (2 : ℚ) = 2 := by norm_num [rustTruncToInt]
  have hsome : rangeNextBack SpaceRace.new.degree_art_map (rustTruncToInt (2 : ℚ))
      = some (0, "asciiArt/space010.txt") := by
    rw [show SpaceRace.new.degree_art_map = degreeArtMap from rfl, h2]
    decide
  exact (degraded_state_handling (fun _ => none) 2).2 0 "asciiArt/space010.txt" hsome rfl

/-- Counterexample to C6 as stated: with the constant blank draw, the
twinkle pass leaves the loop's own frame holding the transformed
content — the input frame object is mutated in place, not preserved. -/
theorem twinkle_mutates_counterexample :
    (twinklePhase (fun _ _ => 3)
        { art_lines := [['*']], original_art := [['*']] }).art_lines ≠ [['*']] := by
  decide

/-- C6 amended: the twinkle pass rewrites the loop's frame in place with
the transformed content (character-wise the twinkle substitution), and
the separately stored `original_art` clone is untouched and is copied
back at the end of the tick, so the frame again holds the original
characters at the tick boundary. -/
theorem twinkle_inplace_then_restore (R : Nat → Nat → Fin 4) (s : LoopState) :
    (twinklePhase R s).art_lines = twinkleFrame R s.art_lines
  ∧ (twinklePhase R s).original_art = s.original_art
  ∧ (tickBody R s).1.art_lines = s.original_art
  ∧ (∀ i j : Nat, i < s.art_lines.length → j < (s.art_lines.getD i []).length →
      charAt (twinklePhase R s).art_lines i j
        = twinkleChar (R i j) (charAt s.art_lines i j)) := by
  refine ⟨rfl, rfl, rfl, ?_⟩
  intro i j hi hj
  exact charAt_twinkleFrame R s.art_lines i j hi hj

/-- Witness for C6 amended on the frame `[['*']]` with the constant
blank draw: the tick ends with the original restored, and mid-tick the
frame holds the substituted character. -/
theorem twinkle_inplace_then_restore_witness :
    (tickBody (fun _ _ => 3) { art_lines := [['*']], original_art := [['*']] }).1.art_lines
      = [['*']]
  ∧ charAt (twinklePhase (fun _ _ => 3)
        { art_lines := [['*']], original_art := [['*']] }).art_lines 0 0 = ' ' := by
  have h := twinkle_inplace_then_restore (fun _ _ => 3)
    { art_lines := [['*']], original_art := [['*']] }
  exact ⟨h.2.2.1, (h.2.2.2 0 0 (by decide) (by decide)).trans (by decide)⟩

/-- C7: every tick of `start_twinkling`'s loop emits, in order, the
clear-screen control, one write per line of the frame transformed from
the stored original, and an 800 ms sleep; and the loop state after
`n + 1` iterations is obtained from the state after `n` by one more
tick — the cycle repeats for every `n`, with no internal termination
condition. -/
theorem tick_cycle_structure (Rs : Nat → Nat → Nat → Fin 4) (sr : SpaceRace) (n : Nat) :
    (tickBody (Rs n) (loopRun Rs (start_twinkling_init sr) n)).2
      = Event.clearScreen ::
          ((twinkleFrame (Rs n) sr.art_lines).map Event.writeLine ++ [Event.sleepMs 800])
  ∧ loopRun Rs (start_twinkling_init sr) (n + 1)
      = (tickBody (Rs n) (loopRun Rs (start_twinkling_init sr) n)).1 := by
  constructor
  · simp only [tickBody, renderPhase, twinklePhase]
    rw [(loopRun_invariant Rs sr n).1]
  · rfl

/-- C8: with `days_between = 20` (clock fixed to 2000-01-21), the angle
is exactly `9600/487 ≈ 19.7`, it lies strictly between 19 and 20, and
the lookup resolves to the 0-threshold asset `asciiArt/space010.txt`
(so not the 20-threshold asset). -/
theorem end_to_end_2000_01_21 :
    calculate_earth_position 20 = 9600 / 487
  ∧ (19 : ℚ) < calculate_earth_position 20
  ∧ calculate_earth_position 20 < 20
  ∧ rangeNextBack degreeArtMap (rustTruncToInt (calculate_earth_position 20))
      = some (0, "asciiArt/space010.txt") := by
  have hval : calculate_earth_position 20 = 9600 / 487 := by
    norm_num [calculate_earth_position, rustFmod, rustTruncToInt]
  have htr : rustTruncToInt (calculate_earth_position 20) = 19 := by
    rw [hval]; norm_num [rustTruncToInt]
  refine ⟨hval, by rw [hval]; norm_num, by rw [hval]; norm_num, ?_⟩
  rw [htr]
  decide

/-- C9: with the built-in catalog the lookup misses exactly when
`⌊angle⌋ ≤ 0`, i.e. (for angles in `[0,360)`) exactly on `[0,1)`; on a
miss the load call leaves the empty frame and prints nothing, and for
every angle in `[1,360)` the lookup yields some asset. -/
theorem lookup_miss_boundary (a : ℚ) (h0 : 0 ≤ a) (_h1 : a < 360) :
    (rangeNextBack degreeArtMap (rustTruncToInt a) = none ↔ a < 1)
  ∧ (a < 1 → ∀ fs : String → Option (List (List Char)),
      load_ascii_art_for_current_position fs SpaceRace.new a = (SpaceRace.new, []))
  ∧ (1 ≤ a → ∃ e, rangeNextBack degreeArtMap (rustTruncToInt a) = some e) := by
  have hiff : rangeNextBack degreeArtMap (rustTruncToInt a) = none ↔ a < 1 := by
    rw [rustTruncToInt_of_nonneg h0, rangeNextBack_none_iff]
    constructor
    · intro h
      have h0lt := h (0, "asciiArt/space010.txt") zero_mem_degreeArtMap
      have hk : ⌊a⌋ ≤ 0 := by omega
      exact (floor_le_zero_iff a).mp hk
    · intro h p hp
      have hk : ⌊a⌋ ≤ 0 := (floor_le_zero_iff a).mpr h
      have := degreeArtMap_keys_nonneg p hp
      omega
  refine ⟨hiff, ?_, ?_⟩
  · intro ha fs
    have hn : rangeNextBack SpaceRace.new.degree_art_map (rustTruncToInt a) = none := by
      rw [show SpaceRace.new.degree_art_map = degreeArtMap from rfl]
      exact hiff.mpr ha
    simp [load_ascii_art_for_current_position, hn]
  · intro ha
    have hk : (0 : Int) < ⌊a⌋ := by
      by_contra hc
      push_neg at hc
      have := (floor_le_zero_iff a).mp hc
      linarith
    rw [rustTruncToInt_of_nonneg h0]
    exact rangeNextBack_isSome degreeArtMap ⌊a⌋ (0, "asciiArt/space010.txt")
      zero_mem_degreeArtMap hk

/-- Witness for C9 at angle `1/2`: the load call returns the unchanged
empty struct and prints nothing. -/
theorem lookup_miss_boundary_witness :
    load_ascii_art_for_current_position (fun _ => none) SpaceRace.new (1 / 2)
      = (SpaceRace.new, []) := by
  have h := lookup_miss_boundary (1 / 2) (by norm_num) (by norm_num)
  exact h.2.1 (by norm_num) (fun _ => none)

/-- C10: the test variant's `update_twinkling` leaves the struct holding
the transformed frame (the clone taken at the top is never used to
restore), so a second call transforms the first call's output: a `'*'`
that the first call's draw (index 3) turned into a blank is passed
through unchanged by the second call, whatever its draws — the marker is
permanently lost. -/
theorem update_twinkling_compounds (R1 R2 : Nat → Nat → Fin 4) (s : SpaceRace) (i j : Nat)
    (hi : i < s.art_lines.length) (hj : j < (s.art_lines.getD i []).length)
    (hc : charAt s.art_lines i j = '*') (hr : R1 i j = 3) :
    (update_twinkling R1 s).art_lines = twinkleFrame R1 s.art_lines
  ∧ charAt (update_twinkling R1 s).art_lines i j = ' '
  ∧ charAt (update_twinkling R2 (update_twinkling R1 s)).art_lines i j = ' ' := by
  have h1 : charAt (twinkleFrame R1 s.art_lines) i j = ' ' := by
    rw [charAt_twinkleFrame R1 s.art_lines i j hi hj, hc, hr]
    decide
  refine ⟨rfl, h1, ?_⟩
  have hi2 : i < (twinkleFrame R1 s.art_lines).length := by
    rw [length_twinkleFrame]; exact hi
  have hj2 : j < ((twinkleFrame R1 s.art_lines).getD i []).length := by
    rw [lineLength_twinkleFrame]; exact hj
  show charAt (twinkleFrame R2 (twinkleFrame R1 s.art_lines)) i j = ' '
  rw [charAt_twinkleFrame R2 _ i j hi2 hj2, h1]
  exact twinkleChar_other _ ' ' (by decide) (by decide)

/-- Witness for C10 on the frame `[['*']]`: after a blank-drawing first
call and an identity-drawing second call, the position still holds the
blank. -/
theorem update_twinkling_compounds_witness :
    charAt (update_twinkling (fun _ _ => 0)
        (update_twinkling (fun _ _ => 3)
          { art_lines := [['*']], degree_art_map := degreeArtMap })).art_lines 0 0 = ' ' := by
  have h := update_twinkling_compounds (fun _ _ => 3) (fun _ _ => 0)
    { art_lines := [['*']], degree_art_map := degreeArtMap } 0 0
    (by decide) (by decide) (by decide) rfl
  exact h.2.2
